import Mathlib

/-!
Verification of the core algorithms of mkctx (main.go), a TUI tool that
assembles selected files of a repository into one Markdown document.

Shallow embedding conventions:
* byte content is a `List Nat` of byte values (bytes are only compared for
  equality, so no modular arithmetic is needed); the backtick byte is 96;
* file names, path segments and relative paths are `List Char` — on the
  Linux target `filepath.ToSlash`/`FromSlash` are the identity and Go's
  byte-wise string order coincides with the lexicographic order on the
  code points, i.e. with the `List Char` lexicographic order;
* the mutable `node` tree of main.go becomes the inductive type `Node`;
  Go's parent pointers and the derived `depth` field are kept as a stored
  `depth` value, and `childMap` (which always holds exactly the entries of
  the `children` slice, keyed by name) becomes name lookup in the list;
* `panic` (the program's only failure mode during tree building) becomes
  `Except.error` with the panic message.
-/

/-! ### FenceNegotiator: maxRunByteInReader (main.go:631-658) and
fenceForContent (main.go:669-675) -/

/-- Backtick byte value, the fence character. -/
def backtick : Nat := 96

/-- Scanning loop of maxRunByteInReader (main.go:636-656): walk the bytes left
to right keeping the current run length `run` of byte `b` and the maximum run
`maxRun` seen so far.  The Go function reads the stream in 32 KiB chunks, but
`run` and `maxRun` persist across chunk boundaries, so the chunked scan equals
this single pass over the whole byte sequence. -/
def maxRunAux (b : Nat) : List Nat → Nat → Nat → Nat
  | [], _, maxRun => maxRun
  | c :: cs, run, maxRun =>
      if c = b then maxRunAux b cs (run + 1) (max maxRun (run + 1))
      else maxRunAux b cs 0 maxRun

/-- maxRunByteInReader (main.go:631-658): longest run of byte `b` in `content`. -/
def maxRunByte (content : List Nat) (b : Nat) : Nat :=
  maxRunAux b content 0 0

/-- Length of the fence chosen by fenceForContent (main.go:669-675):
`n := maxRun + 1; if n < 3 { n = 3 }`. -/
def fenceLenFor (maxRun : Nat) : Nat :=
  if maxRun + 1 < 3 then 3 else maxRun + 1

/-- fenceForContent (main.go:669-675): `strings.Repeat("`", n)` as bytes. -/
def fenceForContent (maxRun : Nat) : List Nat :=
  List.replicate (fenceLenFor maxRun) backtick

theorem fenceLenFor_eq_max (m : Nat) : fenceLenFor m = max (m + 1) 3 := by
  unfold fenceLenFor
  split <;> omega

/-- The accumulator `maxRun` only grows during the scan. -/
theorem maxRunAux_acc_le (b : Nat) :
    ∀ (cs : List Nat) (run m : Nat), m ≤ maxRunAux b cs run m := by
  intro cs
  induction cs with
  | nil => intro run m; exact Nat.le_refl m
  | cons c cs ih =>
      intro run m
      unfold maxRunAux
      by_cases hc : c = b
      · rw [if_pos hc]
        exact le_trans (le_max_left m (run + 1)) (ih (run + 1) (max m (run + 1)))
      · rw [if_neg hc]
        exact ih 0 m

/-- If the scanned list starts with `n` copies of `b` and the accumulator
dominates the current run, the result is at least `run + n`. -/
theorem maxRunAux_ge_of_take (b : Nat) :
    ∀ (n : Nat) (cs : List Nat) (run m : Nat), run ≤ m →
      cs.take n = List.replicate n b → run + n ≤ maxRunAux b cs run m := by
  intro n
  induction n with
  | zero =>
      intro cs run m hrm _
      exact le_trans (Nat.le_of_eq (Nat.add_zero run)) (le_trans hrm (maxRunAux_acc_le b cs run m))
  | succ n ih =>
      intro cs run m hrm htake
      cases cs with
      | nil =>
          exfalso
          have := congrArg List.length htake
          simp at this
      | cons c cs' =>
          rw [List.take_succ_cons, List.replicate_succ] at htake
          have hc : c = b := (List.cons.injEq _ _ _ _ ▸ htake).1
          have hrest : cs'.take n = List.replicate n b := (List.cons.injEq _ _ _ _ ▸ htake).2
          unfold maxRunAux
          rw [if_pos hc]
          have := ih cs' (run + 1) (max m (run + 1)) (le_max_right m (run + 1)) hrest
          omega

/-- Soundness direction of the scan: every contiguous run of `b` in the list is
bounded by the scan result. -/
theorem maxRunAux_ge_run (b : Nat) :
    ∀ (cs : List Nat) (i n run m : Nat), run ≤ m →
      (cs.drop i).take n = List.replicate n b → n ≤ maxRunAux b cs run m := by
  intro cs
  induction cs with
  | nil =>
      intro i n run m hrm htake
      have := congrArg List.length htake
      simp at this
      omega
  | cons c cs' ih =>
      intro i n run m hrm htake
      cases i with
      | zero =>
          rw [List.drop_zero] at htake
          have := maxRunAux_ge_of_take b n (c :: cs') run m hrm htake
          omega
      | succ i =>
          rw [List.drop_succ_cons] at htake
          unfold maxRunAux
          by_cases hc : c = b
          · rw [if_pos hc]
            exact ih i n (run + 1) (max m (run + 1)) (le_max_right m (run + 1)) htake
          · rw [if_neg hc]
            exact ih i n 0 m (Nat.zero_le m) htake

/-- Completeness direction of the scan: the result is either the initial
accumulator, or `run` extended by a run of `b` at the head of the list, or the
length of an actual run of `b` somewhere in the list. -/
theorem maxRunAux_achieved (b : Nat) :
    ∀ (cs : List Nat) (run m : Nat),
      maxRunAux b cs run m = m ∨
      (∃ n, 1 ≤ n ∧ maxRunAux b cs run m = run + n ∧ cs.take n = List.replicate n b) ∨
      (∃ i n, maxRunAux b cs run m = n ∧ (cs.drop i).take n = List.replicate n b) := by
  intro cs
  induction cs with
  | nil => intro run m; exact Or.inl rfl
  | cons c cs' ih =>
      intro run m
      by_cases hc : c = b
      · have hstep : maxRunAux b (c :: cs') run m
            = maxRunAux b cs' (run + 1) (max m (run + 1)) := by
          simp only [maxRunAux, if_pos hc]
        rcases ih (run + 1) (max m (run + 1)) with h | ⟨n, hn1, hval, htake⟩ | ⟨i, n, hval, htake⟩
        · rcases Nat.le_total m (run + 1) with hle | hle
          · refine Or.inr (Or.inl ⟨1, le_refl 1, ?_, ?_⟩)
            · rw [hstep, h]
              omega
            · rw [List.take_succ_cons, List.take_zero, hc]
              rfl
          · exact Or.inl (by rw [hstep, h]; omega)
        · refine Or.inr (Or.inl ⟨n + 1, by omega, ?_, ?_⟩)
          · rw [hstep, hval]
            omega
          · rw [List.take_succ_cons, List.replicate_succ, hc, htake]
        · refine Or.inr (Or.inr ⟨i + 1, n, ?_, ?_⟩)
          · rw [hstep, hval]
          · rw [List.drop_succ_cons, htake]
      · have hstep : maxRunAux b (c :: cs') run m = maxRunAux b cs' 0 m := by
          simp only [maxRunAux, if_neg hc]
        rcases ih 0 m with h | ⟨n, hn1, hval, htake⟩ | ⟨i, n, hval, htake⟩
        · exact Or.inl (hstep.trans h)
        · refine Or.inr (Or.inr ⟨1, n, ?_, ?_⟩)
          · rw [hstep, hval]
            omega
          · rw [List.drop_succ_cons, List.drop_zero, htake]
        · refine Or.inr (Or.inr ⟨i + 1, n, ?_, ?_⟩)
          · rw [hstep, hval]
          · rw [List.drop_succ_cons, htake]

/-- Any contiguous run of byte `b` in `C` has length at most `maxRunByte C b`. -/
theorem maxRun_le (C : List Nat) (b : Nat) (i n : Nat)
    (h : (C.drop i).take n = List.replicate n b) : n ≤ maxRunByte C b :=
  maxRunAux_ge_run b C i n 0 0 (Nat.le_refl 0) h

/-- The value `maxRunByte C b` is realized by an actual contiguous run in `C`. -/
theorem maxRun_achieved (C : List Nat) (b : Nat) :
    ∃ i, (C.drop i).take (maxRunByte C b) = List.replicate (maxRunByte C b) b := by
  unfold maxRunByte
  rcases maxRunAux_achieved b C 0 0 with h | ⟨n, _, hval, htake⟩ | ⟨i, n, hval, htake⟩
  · refine ⟨0, ?_⟩
    rw [h]
    rfl
  · refine ⟨0, ?_⟩
    rw [List.drop_zero, hval, Nat.zero_add]
    exact htake
  · refine ⟨i, ?_⟩
    rw [hval]
    exact htake

/-- C1: for every byte content `C`, with `L` the fence length computed by the
fence negotiation (`L = fenceLenFor (maxRunByte C backtick)`, i.e.
`max (longest run + 1) 3`), no substring of `C` consists of `L` or more
consecutive backticks: every window of length `n ≥ L` differs from `n`
backticks. -/
theorem fence_safety (C : List Nat) (i n : Nat)
    (h : fenceLenFor (maxRunByte C backtick) ≤ n) :
    (C.drop i).take n ≠ List.replicate n backtick := by
  intro heq
  have h1 := maxRun_le C backtick i n heq
  have h2 := fenceLenFor_eq_max (maxRunByte C backtick)
  omega

theorem fence_safety_witness :
    fenceLenFor (maxRunByte [96, 96, 96] backtick) ≤ 4 ∧
    (([96, 96, 96] : List Nat).drop 0).take 4 ≠ List.replicate 4 backtick :=
  ⟨by decide, fence_safety [96, 96, 96] 0 4 (by decide)⟩

/-- C2: if the longest contiguous backtick run of `C` has length exactly `k`
(there is a run of length `k` and none of length `k + 1`), the negotiated
fence length is `max (k + 1) 3`; with `k = 0` (no backtick at all) it is 3. -/
theorem fence_length_exact (C : List Nat) (k : Nat)
    (hex : ∃ i, (C.drop i).take k = List.replicate k backtick)
    (hno : ∀ i, (C.drop i).take (k + 1) ≠ List.replicate (k + 1) backtick) :
    fenceLenFor (maxRunByte C backtick) = max (k + 1) 3 := by
  have hk : maxRunByte C backtick = k := by
    rcases hex with ⟨i, hi⟩
    have h1 : k ≤ maxRunByte C backtick := maxRun_le C backtick i k hi
    rcases maxRun_achieved C backtick with ⟨j, hj⟩
    by_contra hne
    have h2 : k + 1 ≤ maxRunByte C backtick := by omega
    have hpre : (C.drop j).take (k + 1) = List.replicate (k + 1) backtick := by
      have hcut := congrArg (List.take (k + 1)) hj
      rw [List.take_take, List.take_replicate, min_eq_left h2] at hcut
      exact hcut
    exact hno j hpre
  rw [hk, fenceLenFor_eq_max]

theorem fence_length_exact_witness :
    (∃ i, (([96, 96] : List Nat).drop i).take 2 = List.replicate 2 backtick) ∧
    (∀ i, (([96, 96] : List Nat).drop i).take 3 ≠ List.replicate 3 backtick) ∧
    fenceLenFor (maxRunByte [96, 96] backtick) = max (2 + 1) 3 := by
  have hno : ∀ i, (([96, 96] : List Nat).drop i).take 3 ≠ List.replicate 3 backtick := by
    intro i h
    have h1 := maxRun_le [96, 96] backtick i 3 h
    have h2 : maxRunByte [96, 96] backtick = 2 := by decide
    omega
  exact ⟨⟨0, by decide⟩, hno, fence_length_exact [96, 96] 2 ⟨0, by decide⟩ hno⟩

/-! ### Token estimate (main.go:793-796) -/

/-- Token estimate of buildMarkdown (main.go:795): `tokens = (size + 3) / 4` in
integer arithmetic (the file size is non-negative, so Go's int64 division here
is Nat division). -/
def tokensForSize (size : Nat) : Nat := (size + 3) / 4

/-- C9: the reported token estimate for a document of `B` bytes is exactly
`⌈B / 4⌉` (true ceiling division over the rationals), and `B = 12345` yields
3087 tokens. -/
theorem token_estimate :
    (∀ B : Nat, (tokensForSize B : ℤ) = ⌈(B : ℚ) / 4⌉) ∧ tokensForSize 12345 = 3087 := by
  constructor
  · intro B
    unfold tokensForSize
    have hlow : B ≤ 4 * ((B + 3) / 4) := by omega
    have hhigh : 4 * ((B + 3) / 4) ≤ B + 3 := by omega
    have hlowq : (B : ℚ) ≤ 4 * (((B + 3) / 4 : Nat) : ℚ) := by exact_mod_cast hlow
    have hhighq : 4 * (((B + 3) / 4 : Nat) : ℚ) ≤ (B : ℚ) + 3 := by exact_mod_cast hhigh
    rw [eq_comm, Int.ceil_eq_iff, Int.cast_natCast]
    constructor
    · linarith
    · linarith
  · rfl

/-! ### The file tree (main.go:23-97) -/

/-- The node type of main.go:23-35.  A directory owns its list of children (the
`children` slice; `childMap` always contains exactly the same nodes keyed by
name, so it is represented by name lookup in the list).  The `depth` field is
set at creation time from the parent (main.go:45-47, 59-61); `expanded` is
meaningful for directories, `selected` for files. -/
inductive Node where
  | file (name : List Char) (relBase : List Char) (depth : Nat) (selected : Bool)
  | dir (name : List Char) (relBase : List Char) (depth : Nat) (expanded : Bool)
        (children : List Node)

/-- Name of a node (segment label). -/
def nodeName : Node → List Char
  | Node.file n _ _ _ => n
  | Node.dir n _ _ _ _ => n

/-- Base-relative path of a node.  On the Linux target these are
slash-separated, and `filepath.ToSlash` is the identity. -/
def nodeRelBase : Node → List Char
  | Node.file _ rb _ _ => rb
  | Node.dir _ rb _ _ _ => rb

/-- Directory flag. -/
def nodeIsDir : Node → Bool
  | Node.file _ _ _ _ => false
  | Node.dir _ _ _ _ _ => true

/-- Stored depth. -/
def nodeDepth : Node → Nat
  | Node.file _ _ d _ => d
  | Node.dir _ _ d _ _ => d

/-- Children of a node; a file has none (its `childMap` is nil, main.go:56,
65-71). -/
def nodeChildren : Node → List Node
  | Node.file _ _ _ _ => []
  | Node.dir _ _ _ _ cs => cs

/-- Structural induction principle for `Node` giving the hypothesis on every
member of the child list. -/
theorem node_ind (motive : Node → Prop)
    (hf : ∀ n rb d s, motive (Node.file n rb d s))
    (hd : ∀ n rb d e cs, (∀ c ∈ cs, motive c) → motive (Node.dir n rb d e cs)) :
    ∀ t, motive t := by
  intro t
  induction t using Node.rec (motive_2 := fun cs => ∀ c ∈ cs, motive c) with
  | file n rb d s => exact hf n rb d s
  | dir n rb d e cs ih => exact hd n rb d e cs ih
  | nil =>
      rename_i c h
      exact absurd h (List.not_mem_nil c)
  | cons c cs hc hcs =>
      rename_i x hx
      rcases List.mem_cons.1 hx with h | h
      · exact h ▸ hc
      · exact hcs x h

/-! ### selectedFiles (main.go:539-555) -/

mutual
/-- Collection pass of model.selectedFiles (main.go:541-552): depth-first walk
of the tree appending the relBase of every file node with `selected = true`
(`filepath.ToSlash` is the identity here); directories are entered regardless
of their `expanded` flag. -/
def collectSelected : Node → List (List Char)
  | Node.file _ rb _ sel => if sel then [rb] else []
  | Node.dir _ _ _ _ cs => collectSelectedList cs

/-- Walk of a child list, left to right, for `collectSelected`. -/
def collectSelectedList : List Node → List (List Char)
  | [] => []
  | c :: cs => collectSelected c ++ collectSelectedList cs
end

/-- sort.Strings (main.go:553): ascending lexicographic sort of the collected
paths.  Go compares strings byte-wise; on UTF-8 data this is the code-point
lexicographic order, i.e. the `List Char` linear order.  `sort.Strings` is
modelled by insertion sort: both produce the unique ascending reordering. -/
def sortPaths (l : List (List Char)) : List (List Char) :=
  List.insertionSort (fun a b => a ≤ b) l

/-- model.selectedFiles (main.go:539-555): collect then sort. -/
def selectedFiles (root : Node) : List (List Char) :=
  sortPaths (collectSelected root)

/-- C3: selectedFiles returns exactly the selected file paths of the final
tree (a permutation of the depth-first collection), in ascending lexicographic
order; and it depends only on the multiset of selected paths — any two final
trees carrying the same selected paths (in any selection order or tree
position) yield the identical list. -/
theorem selected_files_canonical (t : Node) :
    (selectedFiles t).Perm (collectSelected t) ∧
    List.Sorted (fun a b => a ≤ b) (selectedFiles t) ∧
    ∀ t' : Node, (collectSelected t').Perm (collectSelected t) →
      selectedFiles t' = selectedFiles t := by
  refine ⟨List.perm_insertionSort _ _, List.sorted_insertionSort _ _, ?_⟩
  intro t' hperm
  apply List.eq_of_perm_of_sorted (r := fun a b : List Char => a ≤ b)
  · exact ((List.perm_insertionSort _ _).trans hperm).trans
      (List.perm_insertionSort _ _).symm
  · exact List.sorted_insertionSort _ _
  · exact List.sorted_insertionSort _ _

theorem selected_files_canonical_witness :
    (collectSelected (Node.dir ['.'] ['.'] 0 false
        [Node.file ['a'] ['a'] 1 true,
         Node.dir ['d'] ['d'] 1 true [Node.file ['b'] ['b'] 2 true]])).Perm
      (collectSelected (Node.dir ['.'] ['.'] 0 true
        [Node.file ['b'] ['b'] 1 true, Node.file ['a'] ['a'] 1 true])) ∧
    selectedFiles (Node.dir ['.'] ['.'] 0 false
        [Node.file ['a'] ['a'] 1 true,
         Node.dir ['d'] ['d'] 1 true [Node.file ['b'] ['b'] 2 true]])
      = selectedFiles (Node.dir ['.'] ['.'] 0 true
        [Node.file ['b'] ['b'] 1 true, Node.file ['a'] ['a'] 1 true]) := by
  have hperm : (collectSelected (Node.dir ['.'] ['.'] 0 false
        [Node.file ['a'] ['a'] 1 true,
         Node.dir ['d'] ['d'] 1 true [Node.file ['b'] ['b'] 2 true]])).Perm
      (collectSelected (Node.dir ['.'] ['.'] 0 true
        [Node.file ['b'] ['b'] 1 true, Node.file ['a'] ['a'] 1 true])) := by
    decide
  exact ⟨hperm, (selected_files_canonical _).2.2 _ hperm⟩

/-! ### TreeBuilder: buildTree (main.go:488-537), newDir/newFile/addChild
(main.go:37-79) and finalizeTree (main.go:81-97) -/

/-- strings.Split(s, "/") (main.go:507) on char lists: maximal split at every
slash; the empty string splits into one empty segment. -/
def splitSlash : List Char → List (List Char)
  | [] => [[]]
  | c :: cs =>
      if c = '/' then [] :: splitSlash cs
      else (c :: (splitSlash cs).headI) :: (splitSlash cs).tail

/-- filepath.Join(a, b) (main.go:518, 529) for the argument shapes occurring
during tree building: `a` is "." or a clean slash-separated path and `b` is a
single slash-free segment.  Join concatenates the non-empty components with a
slash and Cleans the result, so Join(".", b) = b, Join(a, "") = a and
otherwise Join(a, b) = a ++ "/" ++ b.  (Segments "." or ".." never occur in
the listings the program consumes, so Clean's dot collapsing is not needed.) -/
def joinRel (a b : List Char) : List Char :=
  if a = ['.'] then (if b = [] then a else b)
  else if b = [] then a
  else a ++ '/' :: b

/-- node.child (main.go:65-71): name lookup among the children.  The Go code
consults `childMap`, which by construction (main.go:73-79) holds exactly the
nodes of the `children` slice keyed by name; a file node has no children. -/
def findChild : List Node → List Char → Option Node
  | [], _ => none
  | c :: cs, s => if nodeName c = s then some c else findChild cs s

/-- node.addChild (main.go:73-79): append a child; on a file node the Go code
panics with "addChild on file node". -/
def addChildNode : Node → Node → Except String Node
  | Node.file _ _ _ _, _ => Except.error "addChild on file node"
  | Node.dir n rb d e cs, c => Except.ok (Node.dir n rb d e (cs ++ [c]))

/-- Replace the node fields' children list (used to write back a modified
child; in Go the mutation happens in place through the child pointer). -/
def setChildren : Node → List Node → Node
  | Node.file n rb d s, _ => Node.file n rb d s
  | Node.dir n rb d e _, cs => Node.dir n rb d e cs

/-- Replace the first child carrying the given name (the one `findChild`
yields; sibling names are unique in built trees). -/
def replaceNamed : List Node → List Char → Node → List Node
  | [], _, _ => []
  | c :: cs, s, c' => if nodeName c = s then c' :: cs else c :: replaceNamed cs s c'

/-- Per-path segment loop of buildTree (main.go:508-532).  For a non-final
segment the walk descends into an existing child by name or creates a fresh
directory; for the final segment an existing child of that name makes the
path a silent no-op, otherwise a file leaf is appended.  In Go the walk
mutates `cur` in place; here the modified child is written back with
`replaceNamed`/`setChildren`.  When the walk stands on a file node its child
lookup is empty (nil childMap), so the following `addChild` panics — the
panic, Go's only exit from this loop, is the `Except.error`.  (For a missing
non-final segment Go panics already when appending the fresh directory to a
file node; the orphan subtree built here before erroring is unobservable.) -/
def insertParts : Node → List (List Char) → Except String Node
  | t, [] => Except.ok t
  | t, [part] =>
      match findChild (nodeChildren t) part with
      | some _ => Except.ok t
      | none =>
          addChildNode t
            (Node.file part (joinRel (nodeRelBase t) part) (nodeDepth t + 1) false)
  | t, part :: r2 :: rs =>
      match findChild (nodeChildren t) part with
      | some c =>
          match insertParts c (r2 :: rs) with
          | Except.ok c' => Except.ok (setChildren t (replaceNamed (nodeChildren t) part c'))
          | Except.error e => Except.error e
      | none =>
          match insertParts
              (Node.dir part (joinRel (nodeRelBase t) part) (nodeDepth t + 1) false [])
              (r2 :: rs) with
          | Except.ok d' => addChildNode t d'
          | Except.error e => Except.error e

/-- Prefix handling of buildTree (main.go:492-505): with start prefix "." the
path is used as is; otherwise only paths strictly under `startRel ++ "/"` are
kept (others are skipped defensively) and the prefix is trimmed. -/
def stripStart (startRel full : List Char) : Option (List Char) :=
  if startRel = ['.'] then some full
  else if List.isPrefixOf (startRel ++ ['/']) full then
    some (full.drop (startRel.length + 1))
  else none

/-- Sibling order of finalizeTree's sort.Slice comparator (main.go:85-91):
directories first, then alphabetical by name.  `nodeLe a b` states that `a`
may come before `b` (the negation of `less b a`). -/
def nodeLe (a b : Node) : Prop :=
  if nodeIsDir a = nodeIsDir b then nodeName a ≤ nodeName b else nodeIsDir a = true

instance : DecidableRel nodeLe := fun a b => by unfold nodeLe; infer_instance

mutual
/-- finalizeTree (main.go:81-97): sort every directory's children
(directories first, then alphabetical) and expand a directory iff it has at
most 32 immediate children.  The Go code sorts the sibling slice and then
recurses into the children; since the recursion changes neither `name` nor
`isDir` — the sort keys — sorting the recursively finalized children builds
the same tree.  sort.Slice is modelled by insertion sort: sibling names are
unique in built trees, so the comparator is a strict total order and every
sorting algorithm yields the same, unique ascending order. -/
def finalizeNode : Node → Node
  | Node.file n rb d sel => Node.file n rb d sel
  | Node.dir n rb d _ cs =>
      Node.dir n rb d (decide (cs.length ≤ 32))
        (List.insertionSort nodeLe (finalizeChildren cs))

/-- Recursive finalization of a child list. -/
def finalizeChildren : List Node → List Node
  | [] => []
  | c :: cs => finalizeNode c :: finalizeChildren cs
end

/-- Path loop of buildTree (main.go:492-533), threading the root through the
per-path insertions; the first panic aborts everything (error short-circuit). -/
def buildTreeAux (startRel : List Char) : Node → List (List Char) → Except String Node
  | root, [] => Except.ok root
  | root, full :: files =>
      match stripStart startRel full with
      | none => buildTreeAux startRel root files
      | some within =>
          if within = [] then buildTreeAux startRel root files
          else
            match insertParts root (splitSlash within) with
            | Except.ok root' => buildTreeAux startRel root' files
            | Except.error e => Except.error e

/-- buildTree (main.go:488-537): start from the root directory
(newDir(nil, startRelSlash, startRelSlash), depth 0, collapsed), insert every
listed path, then finalize. -/
def buildTree (startRel : List Char) (files : List (List Char)) : Except String Node :=
  Except.map finalizeNode (buildTreeAux startRel (Node.dir startRel startRel 0 false []) files)

/-! ### Invariants of the built tree (claims C5, C6, C10) -/

instance : IsTotal Node nodeLe := by
  constructor
  intro a b
  unfold nodeLe
  by_cases h : nodeIsDir a = nodeIsDir b
  · rw [if_pos h, if_pos h.symm]
    exact le_total _ _
  · rw [if_neg h, if_neg (Ne.symm h)]
    cases ha : nodeIsDir a
    · cases hb : nodeIsDir b
      · exact absurd (ha.trans hb.symm) h
      · exact Or.inr rfl
    · exact Or.inl rfl

instance : IsTrans Node nodeLe := by
  constructor
  intro a b c hab hbc
  unfold nodeLe at hab hbc ⊢
  by_cases h1 : nodeIsDir a = nodeIsDir b
  · by_cases h2 : nodeIsDir b = nodeIsDir c
    · rw [if_pos h1] at hab
      rw [if_pos h2] at hbc
      rw [if_pos (h1.trans h2)]
      exact le_trans hab hbc
    · rw [if_neg h2] at hbc
      rw [if_neg (fun hh => h2 (h1.symm.trans hh))]
      exact h1.trans hbc
  · rw [if_neg h1] at hab
    by_cases h2 : nodeIsDir b = nodeIsDir c
    · rw [if_neg (fun hh => h1 (hh.trans h2.symm))]
      exact hab
    · rw [if_neg h2] at hbc
      exact absurd hbc (fun hb => h1 (hab.trans hb.symm))

/-- Every directory of the tree has its children in the finalize order:
pairwise `nodeLe`, i.e. all directories before all files and each group in
ascending name order. -/
inductive SortedTree : Node → Prop
  | file (n rb : List Char) (d : Nat) (s : Bool) : SortedTree (Node.file n rb d s)
  | dir (n rb : List Char) (d : Nat) (e : Bool) (cs : List Node)
      (hs : List.Pairwise nodeLe cs) (hc : ∀ c ∈ cs, SortedTree c) :
      SortedTree (Node.dir n rb d e cs)

/-- Every node of the tree gives its children depth one more than its own. -/
inductive DepthOk : Node → Prop
  | file (n rb : List Char) (d : Nat) (s : Bool) : DepthOk (Node.file n rb d s)
  | dir (n rb : List Char) (d : Nat) (e : Bool) (cs : List Node)
      (hdep : ∀ c ∈ cs, nodeDepth c = d + 1) (hrec : ∀ c ∈ cs, DepthOk c) :
      DepthOk (Node.dir n rb d e cs)

theorem finalizeChildren_eq_map : ∀ cs, finalizeChildren cs = cs.map finalizeNode := by
  intro cs
  induction cs with
  | nil => rfl
  | cons c cs ih => rw [finalizeChildren, ih, List.map_cons]

theorem nodeDepth_finalize (t : Node) : nodeDepth (finalizeNode t) = nodeDepth t := by
  cases t <;> rfl

/-- finalizeTree establishes the sibling order everywhere. -/
theorem sorted_finalize : ∀ t, SortedTree (finalizeNode t) := by
  intro t
  induction t using node_ind with
  | hf n rb d s => exact SortedTree.file n rb d s
  | hd n rb d e cs ih =>
      rw [finalizeNode]
      refine SortedTree.dir _ _ _ _ _ (List.sorted_insertionSort nodeLe _) ?_
      intro c hc
      have hmem : c ∈ finalizeChildren cs := (List.perm_insertionSort nodeLe _).mem_iff.1 hc
      rw [finalizeChildren_eq_map] at hmem
      obtain ⟨c0, hc0, rfl⟩ := List.mem_map.1 hmem
      exact ih c0 hc0

/-- finalizeTree preserves the depth invariant. -/
theorem finalize_depthOk : ∀ t, DepthOk t → DepthOk (finalizeNode t) := by
  intro t
  induction t using node_ind with
  | hf n rb d s => intro _; exact DepthOk.file n rb d s
  | hd n rb d e cs ih =>
      intro hd0
      cases hd0 with
      | dir _ _ _ _ _ hdep hrec =>
          rw [finalizeNode]
          refine DepthOk.dir _ _ _ _ _ ?_ ?_
          · intro x hx
            have hmem : x ∈ finalizeChildren cs := (List.perm_insertionSort nodeLe _).mem_iff.1 hx
            rw [finalizeChildren_eq_map] at hmem
            obtain ⟨c0, hc0, rfl⟩ := List.mem_map.1 hmem
            rw [nodeDepth_finalize]
            exact hdep c0 hc0
          · intro x hx
            have hmem : x ∈ finalizeChildren cs := (List.perm_insertionSort nodeLe _).mem_iff.1 hx
            rw [finalizeChildren_eq_map] at hmem
            obtain ⟨c0, hc0, rfl⟩ := List.mem_map.1 hmem
            exact ih c0 hc0 (hrec c0 hc0)

theorem findChild_mem : ∀ (cs : List Node) (s : List Char) (c : Node),
    findChild cs s = some c → c ∈ cs := by
  intro cs
  induction cs with
  | nil => intro s c h; cases h
  | cons x xs ih =>
      intro s c h
      rw [findChild] at h
      by_cases hx : nodeName x = s
      · rw [if_pos hx] at h
        cases h
        exact List.mem_cons_self x xs
      · rw [if_neg hx] at h
        exact List.mem_cons_of_mem x (ih s c h)

theorem mem_replaceNamed : ∀ (cs : List Node) (s : List Char) (c' x : Node),
    x ∈ replaceNamed cs s c' → x = c' ∨ x ∈ cs := by
  intro cs
  induction cs with
  | nil => intro s c' x h; cases h
  | cons y ys ih =>
      intro s c' x h
      rw [replaceNamed] at h
      by_cases hy : nodeName y = s
      · rw [if_pos hy] at h
        rcases List.mem_cons.1 h with h | h
        · exact Or.inl h
        · exact Or.inr (List.mem_cons_of_mem y h)
      · rw [if_neg hy] at h
        rcases List.mem_cons.1 h with h | h
        · exact Or.inr (h ▸ List.mem_cons_self y ys)
        · rcases ih s c' x h with h | h
          · exact Or.inl h
          · exact Or.inr (List.mem_cons_of_mem y h)

/-- Each path insertion preserves the depth invariant and the root's own
depth: every created node is given its parent's depth plus one
(main.go:45-47, 59-61, 518-531). -/
theorem insertParts_depthOk : ∀ (ps : List (List Char)) (t t' : Node),
    insertParts t ps = Except.ok t' → DepthOk t →
    DepthOk t' ∧ nodeDepth t' = nodeDepth t := by
  intro ps
  induction ps with
  | nil =>
      intro t t' h hd
      simp only [insertParts] at h
      cases h
      exact ⟨hd, rfl⟩
  | cons part rest ih =>
      intro t t' h hd
      cases rest with
      | nil =>
          simp only [insertParts] at h
          cases hfc : findChild (nodeChildren t) part with
          | some c =>
              rw [hfc] at h
              cases h
              exact ⟨hd, rfl⟩
          | none =>
              rw [hfc] at h
              cases t with
              | file n rb d s =>
                  simp only [addChildNode] at h
                  exact Except.noConfusion h
              | dir n rb d e cs =>
                  simp only [addChildNode] at h
                  cases h
                  cases hd with
                  | dir _ _ _ _ _ hdep hrec =>
                      refine ⟨DepthOk.dir _ _ _ _ _ ?_ ?_, rfl⟩
                      · intro x hx
                        rcases List.mem_append.1 hx with hx | hx
                        · exact hdep x hx
                        · rw [List.mem_singleton.1 hx]
                          rfl
                      · intro x hx
                        rcases List.mem_append.1 hx with hx | hx
                        · exact hrec x hx
                        · rw [List.mem_singleton.1 hx]
                          exact DepthOk.file _ _ _ _
      | cons r2 rs =>
          simp only [insertParts] at h
          cases hfc : findChild (nodeChildren t) part with
          | some c =>
              simp only [hfc] at h
              cases hins : insertParts c (r2 :: rs) with
              | error e =>
                  simp only [hins] at h
                  exact Except.noConfusion h
              | ok c' =>
                  simp only [hins] at h
                  cases h
                  cases t with
                  | file n rb d s => exact Option.noConfusion hfc
                  | dir n rb d e cs =>
                      cases hd with
                      | dir _ _ _ _ _ hdep hrec =>
                          have hcmem : c ∈ cs := findChild_mem cs part c hfc
                          have hc' := ih c c' hins (hrec c hcmem)
                          simp only [setChildren, nodeChildren]
                          refine ⟨DepthOk.dir _ _ _ _ _ ?_ ?_, rfl⟩
                          · intro x hx
                            rcases mem_replaceNamed cs part c' x hx with hx | hx
                            · rw [hx, hc'.2]
                              exact hdep c hcmem
                            · exact hdep x hx
                          · intro x hx
                            rcases mem_replaceNamed cs part c' x hx with hx | hx
                            · rw [hx]
                              exact hc'.1
                            · exact hrec x hx
          | none =>
              simp only [hfc] at h
              cases hins : insertParts
                  (Node.dir part (joinRel (nodeRelBase t) part) (nodeDepth t + 1) false [])
                  (r2 :: rs) with
              | error e =>
                  simp only [hins] at h
                  exact Except.noConfusion h
              | ok d' =>
                  simp only [hins] at h
                  have hfresh : DepthOk
                      (Node.dir part (joinRel (nodeRelBase t) part) (nodeDepth t + 1) false []) :=
                    DepthOk.dir _ _ _ _ _
                      (fun c hc => absurd hc (List.not_mem_nil c))
                      (fun c hc => absurd hc (List.not_mem_nil c))
                  have hd' := ih _ d' hins hfresh
                  cases t with
                  | file n rb d s =>
                      simp only [addChildNode] at h
                      exact Except.noConfusion h
                  | dir n rb d e cs =>
                      simp only [addChildNode] at h
                      cases h
                      cases hd with
                      | dir _ _ _ _ _ hdep hrec =>
                          refine ⟨DepthOk.dir _ _ _ _ _ ?_ ?_, rfl⟩
                          · intro x hx
                            rcases List.mem_append.1 hx with hx | hx
                            · exact hdep x hx
                            · rw [List.mem_singleton.1 hx, hd'.2]
                              rfl
                          · intro x hx
                            rcases List.mem_append.1 hx with hx | hx
                            · exact hrec x hx
                            · rw [List.mem_singleton.1 hx]
                              exact hd'.1

/-- The path loop of buildTree preserves the depth invariant of the root. -/
theorem buildTreeAux_depthOk : ∀ (files : List (List Char)) (startRel : List Char)
    (root t : Node), buildTreeAux startRel root files = Except.ok t → DepthOk root →
    DepthOk t ∧ nodeDepth t = nodeDepth root := by
  intro files
  induction files with
  | nil =>
      intro sr root t h hd
      simp only [buildTreeAux] at h
      cases h
      exact ⟨hd, rfl⟩
  | cons full fs ih =>
      intro sr root t h hd
      simp only [buildTreeAux] at h
      cases hstrip : stripStart sr full with
      | none =>
          simp only [hstrip] at h
          exact ih sr root t h hd
      | some w =>
          simp only [hstrip] at h
          by_cases hw : w = []
          · rw [if_pos hw] at h
            exact ih sr root t h hd
          · rw [if_neg hw] at h
            cases hins : insertParts root (splitSlash w) with
            | error e =>
                simp only [hins] at h
                exact Except.noConfusion h
            | ok root' =>
                simp only [hins] at h
                have hr := insertParts_depthOk _ _ _ hins hd
                have := ih sr root' t h hr.1
                exact ⟨this.1, this.2.trans hr.2⟩

/-- C5: every successfully built tree has, in every directory, all directory
children before all file children with each group in ascending name order
(`SortedTree`), and its depths satisfy the claim's recursive
characterization: the root has depth 0 and every child's stored depth is its
parent's depth plus one (`DepthOk`) — equivalently, a node's depth counts the
tree edges from the root, the number of path segments below the start
prefix. -/
theorem tree_sorted_and_depth (startRel : List Char) (files : List (List Char)) (t : Node)
    (h : buildTree startRel files = Except.ok t) :
    SortedTree t ∧ nodeDepth t = 0 ∧ DepthOk t := by
  unfold buildTree at h
  cases haux : buildTreeAux startRel (Node.dir startRel startRel 0 false []) files with
  | error e => rw [haux] at h; cases h
  | ok u =>
      rw [haux] at h
      simp only [Except.map] at h
      cases h
      have hroot : DepthOk (Node.dir startRel startRel 0 false []) :=
        DepthOk.dir _ _ _ _ _
          (fun c hc => absurd hc (List.not_mem_nil c))
          (fun c hc => absurd hc (List.not_mem_nil c))
      have hu := buildTreeAux_depthOk files startRel _ u haux hroot
      exact ⟨sorted_finalize u, (nodeDepth_finalize u).trans hu.2,
        finalize_depthOk u hu.1⟩

theorem tree_sorted_and_depth_witness :
    buildTree ['.'] [['b', '/', 'x'], ['a']] =
      Except.ok (Node.dir ['.'] ['.'] 0 true
        [Node.dir ['b'] ['b'] 1 true [Node.file ['x'] ['b', '/', 'x'] 2 false],
         Node.file ['a'] ['a'] 1 false]) ∧
    (SortedTree (Node.dir ['.'] ['.'] 0 true
        [Node.dir ['b'] ['b'] 1 true [Node.file ['x'] ['b', '/', 'x'] 2 false],
         Node.file ['a'] ['a'] 1 false]) ∧
      nodeDepth (Node.dir ['.'] ['.'] 0 true
        [Node.dir ['b'] ['b'] 1 true [Node.file ['x'] ['b', '/', 'x'] 2 false],
         Node.file ['a'] ['a'] 1 false]) = 0 ∧
      DepthOk (Node.dir ['.'] ['.'] 0 true
        [Node.dir ['b'] ['b'] 1 true [Node.file ['x'] ['b', '/', 'x'] 2 false],
         Node.file ['a'] ['a'] 1 false])) :=
  ⟨rfl, tree_sorted_and_depth ['.'] [['b', '/', 'x'], ['a']] _ rfl⟩

/-! ### Claim C6: paths with a trailing separator -/

theorem splitSlash_ne_nil : ∀ p : List Char, splitSlash p ≠ [] := by
  intro p
  cases p with
  | nil => simp [splitSlash]
  | cons c cs =>
      by_cases hc : c = '/' <;> simp [splitSlash, hc]

/-- Splitting a path that ends in a separator yields the split of the rest
followed by one empty segment — strings.Split does not drop it. -/
theorem splitSlash_append_sep : ∀ p : List Char,
    splitSlash (p ++ ['/']) = splitSlash p ++ [[]] := by
  intro p
  induction p with
  | nil => rfl
  | cons c cs ih =>
      by_cases hc : c = '/'
      · simp only [List.cons_append, splitSlash, if_pos hc]
        exact congrArg (fun l => [] :: l) ih
      · cases hsp : splitSlash cs with
        | nil => exact absurd hsp (splitSlash_ne_nil cs)
        | cons x xs =>
            have ih2 : splitSlash (cs ++ ['/']) = x :: (xs ++ [[]]) := by
              rw [ih, hsp]
              rfl
            simp only [List.cons_append, splitSlash, if_neg hc, List.append_eq]
            rw [ih2]
            simp [hsp]

/-- C6 counterexample: the input path "a/" (empty last segment) is NOT
ignored by buildTree — the resulting tree differs from the tree built from
the empty input (it gains a directory "a" holding a file with empty name). -/
theorem trailing_sep_not_ignored :
    buildTree ['.'] [['a', '/']] ≠ buildTree ['.'] [] := by
  intro h
  have h1 : (1 : Nat) = 0 :=
    congrArg (fun e => match e with
      | Except.ok t => (nodeChildren t).length
      | Except.error _ => 0) h
  omega

/-- C6 amended: a path ending in a trailing separator is not ignored: its
empty last segment survives the split (`splitSlash_append_sep`) and is
inserted like any ordinary final segment, creating — when the reached
directory has no child of empty name — a file node named "" (concretely,
"a/" builds dir "a" holding the file ""); the only paths buildTree's loop
skips are those that are empty after prefix stripping. -/
theorem trailing_sep_amended :
    (∀ p : List Char, splitSlash (p ++ ['/']) = splitSlash p ++ [[]]) ∧
    (∀ (startRel full : List Char) (root : Node) (files : List (List Char)),
        stripStart startRel full = some [] →
        buildTreeAux startRel root (full :: files) = buildTreeAux startRel root files) ∧
    buildTree ['.'] [['a', '/']] =
      Except.ok (Node.dir ['.'] ['.'] 0 true
        [Node.dir ['a'] ['a'] 1 true [Node.file [] ['a'] 2 false]]) := by
  refine ⟨splitSlash_append_sep, ?_, rfl⟩
  intro sr full root files hstrip
  simp only [buildTreeAux, hstrip]
  simp

theorem trailing_sep_amended_witness :
    stripStart ['s'] ['s', '/'] = some [] ∧
    buildTreeAux ['s'] (Node.dir ['s'] ['s'] 0 false []) [['s', '/']]
      = buildTreeAux ['s'] (Node.dir ['s'] ['s'] 0 false []) [] :=
  ⟨rfl, trailing_sep_amended.2.1 ['s'] ['s', '/'] (Node.dir ['s'] ['s'] 0 false []) [] rfl⟩

/-! ### Claim C10: collisions during tree construction -/

/-- The directory node reached from `t` by following child names, descending
only through existing directory nodes (the "walk of existing directories"
that buildTree's loop performs before creating anything). -/
def lookupDirPath : Node → List (List Char) → Option Node
  | t, [] => some t
  | t, s :: ss =>
      match findChild (nodeChildren t) s with
      | some c => if nodeIsDir c = true then lookupDirPath c ss else none
      | none => none

theorem replaceNamed_self : ∀ (cs : List Node) (s : List Char) (c : Node),
    findChild cs s = some c → replaceNamed cs s c = cs := by
  intro cs
  induction cs with
  | nil => intro s c h; cases h
  | cons x xs ih =>
      intro s c h
      rw [findChild] at h
      rw [replaceNamed]
      by_cases hx : nodeName x = s
      · rw [if_pos hx] at h
        cases h
        rw [if_pos hx]
      · rw [if_neg hx] at h
        rw [if_neg hx, ih s c h]

theorem setChildren_self : ∀ t : Node, setChildren t (nodeChildren t) = t := by
  intro t
  cases t <;> rfl

/-- Part (a) of C10: a path whose walk reaches directory `d` and whose final
segment `q` names an existing child of `d` (a file or a directory) is a
silent no-op: the insertion returns the tree unchanged and raises no error. -/
theorem insertParts_existing : ∀ (ps : List (List Char)) (t d x : Node) (q : List Char),
    lookupDirPath t ps = some d → findChild (nodeChildren d) q = some x →
    insertParts t (ps ++ [q]) = Except.ok t := by
  intro ps
  induction ps with
  | nil =>
      intro t d x q hl hf
      simp only [lookupDirPath] at hl
      cases hl
      simp only [List.nil_append, insertParts, hf]
  | cons s ss ih =>
      intro t d x q hl hf
      simp only [lookupDirPath] at hl
      cases hfc : findChild (nodeChildren t) s with
      | none =>
          simp only [hfc] at hl
          exact Option.noConfusion hl
      | some c =>
          simp only [hfc] at hl
          by_cases hdir : nodeIsDir c = true
          · rw [if_pos hdir] at hl
            have hrec := ih c d x q hl hf
            rw [List.cons_append]
            cases heq : ss ++ [q] with
            | nil => exact absurd heq (by simp)
            | cons r rr =>
                rw [heq] at hrec
                simp only [insertParts, hfc, hrec]
                rw [replaceNamed_self _ _ _ hfc, setChildren_self]
          · rw [if_neg hdir] at hl
            cases hl

/-- Inserting any path list into a childless directory node always succeeds
(only fresh directories are created along the way, never meeting a file). -/
theorem insertParts_fresh_ok : ∀ (ps : List (List Char)) (nm rb : List Char)
    (dep : Nat) (e : Bool),
    ∃ u, insertParts (Node.dir nm rb dep e []) ps = Except.ok u := by
  intro ps
  induction ps with
  | nil => intro nm rb dep e; exact ⟨_, rfl⟩
  | cons p rest ih =>
      intro nm rb dep e
      cases rest with
      | nil => exact ⟨_, rfl⟩
      | cons r2 rs =>
          obtain ⟨u, hu⟩ := ih p (joinRel rb p) (dep + 1) false
          refine ⟨Node.dir nm rb dep e [u], ?_⟩
          simp only [insertParts, nodeChildren, findChild, nodeRelBase, nodeDepth]
          rw [hu]
          rfl

/-- Descending into a file node with at least one segment left always ends in
the addChild panic: a file's child lookup is empty, so whatever the walk
builds next is appended to the file node, which panics (main.go:73-79). -/
theorem insertParts_file_error : ∀ (rest : List (List Char)) (f : Node),
    nodeIsDir f = false → rest ≠ [] →
    insertParts f rest = Except.error "addChild on file node" := by
  intro rest f hdir hne
  cases f with
  | dir n rb d e cs =>
      simp only [nodeIsDir] at hdir
      exact Bool.noConfusion hdir
  | file n rb d s =>
      cases rest with
      | nil => exact absurd rfl hne
      | cons r rr =>
          cases rr with
          | nil => rfl
          | cons r2 rs =>
              obtain ⟨u, hu⟩ :=
                insertParts_fresh_ok (r2 :: rs) r (joinRel rb r) (d + 1) false
              simp only [insertParts, nodeChildren, findChild, nodeRelBase, nodeDepth]
              rw [hu]
              rfl

/-- Part (b) of C10: a path that meets an existing file node `f` where a
directory is needed (`f` answers a non-final segment `q`, with `rest` still
to walk) aborts the build with the addChild panic message. -/
theorem insertParts_file_collision : ∀ (ps : List (List Char)) (t d f : Node)
    (q : List Char) (rest : List (List Char)),
    lookupDirPath t ps = some d → findChild (nodeChildren d) q = some f →
    nodeIsDir f = false → rest ≠ [] →
    insertParts t (ps ++ q :: rest) = Except.error "addChild on file node" := by
  intro ps
  induction ps with
  | nil =>
      intro t d f q rest hl hf hdir hne
      simp only [lookupDirPath] at hl
      cases hl
      rw [List.nil_append]
      cases rest with
      | nil => exact absurd rfl hne
      | cons r rr =>
          have herr := insertParts_file_error (r :: rr) f hdir (by simp)
          simp only [insertParts, hf, herr]
  | cons s ss ih =>
      intro t d f q rest hl hf hdir hne
      simp only [lookupDirPath] at hl
      cases hfc : findChild (nodeChildren t) s with
      | none =>
          simp only [hfc] at hl
          exact Option.noConfusion hl
      | some c =>
          simp only [hfc] at hl
          by_cases hdirc : nodeIsDir c = true
          · rw [if_pos hdirc] at hl
            have hrec := ih c d f q rest hl hf hdir hne
            rw [List.cons_append]
            cases heq : ss ++ q :: rest with
            | nil => exact absurd heq (by simp)
            | cons r rr =>
                rw [heq] at hrec
                simp only [insertParts, hfc, hrec]
          · rw [if_neg hdirc] at hl
            cases hl

/-- C10: during tree construction, (a) an input path whose final segment
names an already-existing child of its parent directory — a duplicate file
path, or a file path equal to an existing directory's path — is silently
skipped: the tree is returned unchanged, no node is created or modified and
no error is raised; (b) only a collision with an existing file node at a
non-final segment (a file standing where a directory is needed) aborts
fatally, with the "addChild on file node" panic. -/
theorem insert_collision_behavior :
    (∀ (ps : List (List Char)) (t d x : Node) (q : List Char),
        lookupDirPath t ps = some d → findChild (nodeChildren d) q = some x →
        insertParts t (ps ++ [q]) = Except.ok t) ∧
    (∀ (ps : List (List Char)) (t d f : Node) (q : List Char) (rest : List (List Char)),
        lookupDirPath t ps = some d → findChild (nodeChildren d) q = some f →
        nodeIsDir f = false → rest ≠ [] →
        insertParts t (ps ++ q :: rest) = Except.error "addChild on file node") :=
  ⟨insertParts_existing, insertParts_file_collision⟩

theorem insert_collision_behavior_witness :
    (lookupDirPath (Node.dir ['.'] ['.'] 0 true
        [Node.dir ['a'] ['a'] 1 true [Node.file ['x'] ['a', '/', 'x'] 2 false]]) [['a']]
      = some (Node.dir ['a'] ['a'] 1 true [Node.file ['x'] ['a', '/', 'x'] 2 false]) ∧
     insertParts (Node.dir ['.'] ['.'] 0 true
        [Node.dir ['a'] ['a'] 1 true [Node.file ['x'] ['a', '/', 'x'] 2 false]])
        [['a'], ['x']]
      = Except.ok (Node.dir ['.'] ['.'] 0 true
        [Node.dir ['a'] ['a'] 1 true [Node.file ['x'] ['a', '/', 'x'] 2 false]])) ∧
    insertParts (Node.dir ['.'] ['.'] 0 true [Node.file ['x'] ['x'] 1 false])
        [['x'], ['y']]
      = Except.error "addChild on file node" :=
  ⟨⟨rfl, insert_collision_behavior.1 [['a']]
      (Node.dir ['.'] ['.'] 0 true
        [Node.dir ['a'] ['a'] 1 true [Node.file ['x'] ['a', '/', 'x'] 2 false]])
      (Node.dir ['a'] ['a'] 1 true [Node.file ['x'] ['a', '/', 'x'] 2 false])
      (Node.file ['x'] ['a', '/', 'x'] 2 false) ['x'] rfl rfl⟩,
   insert_collision_behavior.2 [] (Node.dir ['.'] ['.'] 0 true [Node.file ['x'] ['x'] 1 false])
      (Node.dir ['.'] ['.'] 0 true [Node.file ['x'] ['x'] 1 false])
      (Node.file ['x'] ['x'] 1 false) ['x'] [['y']] rfl rfl rfl (by simp)⟩

/-! ### TreeModel: flattenVisible (main.go:99-112) and the expand/collapse
mutations of model.Update (main.go:282-302) -/

mutual
/-- flattenVisible (main.go:99-112): depth-first pre-order walk collecting
every visited node; children are visited only when their directory is
expanded.  Each element stands for the `*node` pointer the Go slice holds. -/
def flattenVisible : Node → List Node
  | Node.file n rb d s => [Node.file n rb d s]
  | Node.dir n rb d ex cs =>
      Node.dir n rb d ex cs :: (if ex then flattenList cs else [])

/-- Left-to-right flattening of a child list. -/
def flattenList : List Node → List Node
  | [] => []
  | c :: cs => flattenVisible c ++ flattenList cs
end

/-- Node lookup by the path of child names leading to it — the pure
counterpart of holding a `*node` pointer into the tree (sibling names are
unique in built trees, so the path identifies the node). -/
def nodeAt : Node → List (List Char) → Option Node
  | t, [] => some t
  | t, s :: ss =>
      match findChild (nodeChildren t) s with
      | some c => nodeAt c ss
      | none => none

/-- Apply `f` to the first child with name `s`, keeping its position — the
pure counterpart of mutating the child in place through its pointer. -/
def replaceFirstNamed (s : List Char) (f : Node → Node) : List Node → List Node
  | [] => []
  | c :: cs => if nodeName c = s then f c :: cs else c :: replaceFirstNamed s f cs

/-- Write the `expanded` flag of the node at path `p` (the mutation
`n.expanded = true/false` of model.Update, main.go:285, 296); on a file node
(never hit: the Update guards require a directory) it is the identity. -/
def setExpandedAt : List (List Char) → Bool → Node → Node
  | [], e, Node.dir n rb d _ cs => Node.dir n rb d e cs
  | [], _, t => t
  | s :: ss, e, Node.dir n rb d ex cs =>
      Node.dir n rb d ex (replaceFirstNamed s (setExpandedAt ss e) cs)
  | _ :: _, _, t => t

theorem setExpandedAt_name : ∀ (p : List (List Char)) (e : Bool) (t : Node),
    nodeName (setExpandedAt p e t) = nodeName t := by
  intro p e t
  cases p <;> cases t <;> rfl

/-- Undoing a first-match replacement: if the second pass writes back the
original child, the list is restored. -/
theorem replaceFirst_restore (s : List Char) (f g : Node → Node) :
    ∀ (cs : List Node) (c : Node), findChild cs s = some c →
    (∀ x, nodeName (f x) = nodeName x) → g (f c) = c →
    replaceFirstNamed s g (replaceFirstNamed s f cs) = cs := by
  intro cs
  induction cs with
  | nil => intro c h _ _; cases h
  | cons x xs ih =>
      intro c h hname hgf
      rw [findChild] at h
      by_cases hx : nodeName x = s
      · rw [if_pos hx] at h
        cases h
        rw [replaceFirstNamed, if_pos hx, replaceFirstNamed,
          if_pos ((hname x).trans hx), hgf]
      · rw [if_neg hx] at h
        rw [replaceFirstNamed, if_neg hx, replaceFirstNamed, if_neg hx,
          ih c h hname hgf]

/-- Setting the flag at `p` back to `true` after any write restores the tree,
provided the node at `p` is a directory that was expanded to begin with. -/
theorem setExpandedAt_restore : ∀ (p : List (List Char)) (t : Node)
    (n rb : List Char) (d : Nat) (cs : List Node) (e' : Bool),
    nodeAt t p = some (Node.dir n rb d true cs) →
    setExpandedAt p true (setExpandedAt p e' t) = t := by
  intro p
  induction p with
  | nil =>
      intro t n rb d cs e' h
      simp only [nodeAt] at h
      cases h
      rfl
  | cons s ss ih =>
      intro t n rb d cs e' h
      cases t with
      | file n0 rb0 d0 s0 =>
          simp only [nodeAt, nodeChildren, findChild] at h
          exact Option.noConfusion h
      | dir n0 rb0 d0 ex0 cs0 =>
          simp only [nodeAt] at h
          cases hfc : findChild (nodeChildren (Node.dir n0 rb0 d0 ex0 cs0)) s with
          | none =>
              simp only [hfc] at h
              exact Option.noConfusion h
          | some c =>
              simp only [hfc] at h
              simp only [setExpandedAt]
              rw [replaceFirst_restore s (setExpandedAt ss e') (setExpandedAt ss true)
                cs0 c hfc (setExpandedAt_name ss e') (ih c n rb d cs e' h)]

/-- Writing an `expanded` flag anywhere never touches a `selected` flag. -/
theorem replaceFirst_collect (s : List Char) (f : Node → Node)
    (hf : ∀ x, collectSelected (f x) = collectSelected x) :
    ∀ cs, collectSelectedList (replaceFirstNamed s f cs) = collectSelectedList cs := by
  intro cs
  induction cs with
  | nil => rfl
  | cons x xs ih =>
      rw [replaceFirstNamed]
      by_cases hx : nodeName x = s
      · rw [if_pos hx, collectSelectedList, collectSelectedList, hf x]
      · rw [if_neg hx, collectSelectedList, collectSelectedList, ih]

theorem collect_setExpandedAt : ∀ (p : List (List Char)) (e : Bool) (t : Node),
    collectSelected (setExpandedAt p e t) = collectSelected t := by
  intro p
  induction p with
  | nil => intro e t; cases t <;> rfl
  | cons s ss ih =>
      intro e t
      cases t with
      | file n rb d sel => rfl
      | dir n rb d ex cs =>
          simp only [setExpandedAt, collectSelected]
          exact replaceFirst_collect s (setExpandedAt ss e) (fun x => ih e x) cs

/-- C7: collapsing an expanded non-empty directory (the Left-key effect,
main.go:293-302, writes expanded=false on the node under the cursor and the
visible sequence is recomputed) and expanding it again (the Right-key
effect, main.go:282-291, whose guard holds since the node is now a collapsed
directory with children) yields a visible sequence identical to the one
before the collapse, and leaves the selected flag of every descendant file —
hence the whole selected-path collection — unchanged at both steps. -/
theorem collapse_expand_restores (t : Node) (p : List (List Char))
    (n rb : List Char) (d : Nat) (cs : List Node)
    (hat : nodeAt t p = some (Node.dir n rb d true cs)) (hne : cs ≠ []) :
    flattenVisible (setExpandedAt p true (setExpandedAt p false t)) = flattenVisible t ∧
    collectSelected (setExpandedAt p false t) = collectSelected t ∧
    collectSelected (setExpandedAt p true (setExpandedAt p false t)) = collectSelected t := by
  have hrestore := setExpandedAt_restore p t n rb d cs false hat
  exact ⟨by rw [hrestore], collect_setExpandedAt p false t, by rw [hrestore]⟩

theorem collapse_expand_restores_witness :
    nodeAt (Node.dir ['.'] ['.'] 0 true
        [Node.dir ['a'] ['a'] 1 true [Node.file ['x'] ['a', '/', 'x'] 2 true]]) [['a']]
      = some (Node.dir ['a'] ['a'] 1 true [Node.file ['x'] ['a', '/', 'x'] 2 true]) ∧
    (flattenVisible (setExpandedAt [['a']] true (setExpandedAt [['a']] false
        (Node.dir ['.'] ['.'] 0 true
          [Node.dir ['a'] ['a'] 1 true [Node.file ['x'] ['a', '/', 'x'] 2 true]])))
      = flattenVisible (Node.dir ['.'] ['.'] 0 true
          [Node.dir ['a'] ['a'] 1 true [Node.file ['x'] ['a', '/', 'x'] 2 true]]) ∧
     collectSelected (setExpandedAt [['a']] false
        (Node.dir ['.'] ['.'] 0 true
          [Node.dir ['a'] ['a'] 1 true [Node.file ['x'] ['a', '/', 'x'] 2 true]]))
      = collectSelected (Node.dir ['.'] ['.'] 0 true
          [Node.dir ['a'] ['a'] 1 true [Node.file ['x'] ['a', '/', 'x'] 2 true]]) ∧
     collectSelected (setExpandedAt [['a']] true (setExpandedAt [['a']] false
        (Node.dir ['.'] ['.'] 0 true
          [Node.dir ['a'] ['a'] 1 true [Node.file ['x'] ['a', '/', 'x'] 2 true]])))
      = collectSelected (Node.dir ['.'] ['.'] 0 true
          [Node.dir ['a'] ['a'] 1 true [Node.file ['x'] ['a', '/', 'x'] 2 true]])) :=
  ⟨rfl, collapse_expand_restores _ [['a']] ['a'] ['a'] 1
      [Node.file ['x'] ['a', '/', 'x'] 2 true] rfl (List.cons_ne_nil _ _)⟩

/-! ### InteractionController: model.Update (main.go:253-322),
ensureCursorVisible (main.go:222-251), viewportHeight (main.go:214-220) -/

/-- Expansion flag of a node (false for files). -/
def nodeExpanded : Node → Bool
  | Node.file _ _ _ _ => false
  | Node.dir _ _ _ e _ => e

/-- Selection flag of a node (false for directories). -/
def nodeSelected : Node → Bool
  | Node.file _ _ _ s => s
  | Node.dir _ _ _ _ _ => false

mutual
/-- Paths (child-name lists from the root) of the nodes of flattenVisible, in
visit order; the path plays the role of the `*node` pointer identity held in
the Go `vis` slice. -/
def visPaths : List (List Char) → Node → List (List (List Char))
  | p, Node.file _ _ _ _ => [p]
  | p, Node.dir _ _ _ ex cs => p :: (if ex then visPathsList p cs else [])

/-- Paths of a child list's visible nodes. -/
def visPathsList : List (List Char) → List Node → List (List (List Char))
  | _, [] => []
  | p, c :: cs => visPaths (p ++ [nodeName c]) c ++ visPathsList p cs
end

/-- indexOf (main.go:114-121): first index of the target, 0 when absent. -/
def goIndexOfAux (target : List (List Char)) :
    List (List (List Char)) → Int → Int
  | [], _ => 0
  | x :: xs, i => if x = target then i else goIndexOfAux target xs (i + 1)

/-- indexOf (main.go:114-121) starting the scan at index 0. -/
def goIndexOf (l : List (List (List Char))) (target : List (List Char)) : Int :=
  goIndexOfAux target l 0

/-- Toggle the `selected` flag of the node at path `p`
(`n.selected = !n.selected`, main.go:307). -/
def toggleSelAt : List (List Char) → Node → Node
  | [], Node.file n rb d sel => Node.file n rb d (!sel)
  | [], t => t
  | s :: ss, Node.dir n rb d ex cs =>
      Node.dir n rb d ex (replaceFirstNamed s (toggleSelAt ss) cs)
  | _ :: _, t => t

/-- The model state (main.go:177-197): the tree, the flattened visible
sequence (as node paths), cursor and scroll offset, terminal size, the
denormalized selected counter and the two terminal flags.  Go's int fields
are embedded as `Int`. -/
structure TuiModel where
  root : Node
  vis : List (List (List Char))
  cursor : Int
  offset : Int
  width : Int
  height : Int
  selectedCount : Int
  aborted : Bool
  confirmed : Bool

/-- newModel (main.go:199-210): fresh flatten, everything else zero-valued
(the terminal size is unknown until the first WindowSizeMsg). -/
def initModel (root : Node) : TuiModel :=
  { root := root, vis := visPaths [] root, cursor := 0, offset := 0,
    width := 0, height := 0, selectedCount := 0,
    aborted := false, confirmed := false }

/-- viewportHeight (main.go:214-220): terminal height minus the status and
help lines, but at least 1. -/
def viewportHeight (height : Int) : Int :=
  if height - 2 < 1 then 1 else height - 2

/-- ensureCursorVisible (main.go:222-251) as a function from the visible
count, viewport height and current cursor/offset to the clamped
cursor/offset, following the Go statement sequence exactly. -/
def ensureCursorVisible (lenVis vh cursor offset : Int) : Int × Int :=
  let c1 := if cursor < 0 then 0 else cursor
  let c2 := if c1 ≥ lenVis then (if lenVis - 1 < 0 then 0 else lenVis - 1) else c1
  let o1 := if c2 < offset then c2 else offset
  let o2 := if c2 ≥ o1 + vh then c2 - vh + 1 else o1
  let maxOff := if lenVis - vh < 0 then 0 else lenVis - vh
  let o3 := if o2 > maxOff then maxOff else o2
  let o4 := if o3 < 0 then 0 else o3
  (c2, o4)

/-- Run ensureCursorVisible on a model's cursor and offset. -/
def applyEnsure (m : TuiModel) : TuiModel :=
  let co := ensureCursorVisible (m.vis.length : Int) (viewportHeight m.height) m.cursor m.offset
  { m with cursor := co.1, offset := co.2 }

/-- The input events model.Update handles (main.go:253-322): a terminal
resize and the seven bound keys. -/
inductive Msg where
  | winSize (w h : Int)
  | keyQuit
  | keyUp
  | keyDown
  | keyRight
  | keyLeft
  | keyToggle
  | keyConfirm

/-- model.Update (main.go:253-322).  The node under the cursor is recovered
from its stored path; out-of-range access cannot occur in reachable states
(the cursor is clamped into the always non-empty visible list), and the
defensive `none`/default branches keep the function total. -/
def stepModel (m : TuiModel) (msg : Msg) : TuiModel :=
  match msg with
  | Msg.winSize w h => applyEnsure { m with width := w, height := h }
  | Msg.keyQuit => { m with aborted := true }
  | Msg.keyUp =>
      applyEnsure { m with cursor := if m.cursor > 0 then m.cursor - 1 else m.cursor }
  | Msg.keyDown =>
      applyEnsure
        { m with cursor :=
            if m.cursor < (m.vis.length : Int) - 1 then m.cursor + 1 else m.cursor }
  | Msg.keyRight =>
      match nodeAt m.root (m.vis.getD m.cursor.toNat []) with
      | some nd =>
          if nodeIsDir nd = true ∧ nodeExpanded nd = false ∧ 0 < (nodeChildren nd).length
          then
            applyEnsure
              { m with
                root := setExpandedAt (m.vis.getD m.cursor.toNat []) true m.root,
                vis := visPaths [] (setExpandedAt (m.vis.getD m.cursor.toNat []) true m.root),
                cursor := goIndexOf
                  (visPaths [] (setExpandedAt (m.vis.getD m.cursor.toNat []) true m.root))
                  (m.vis.getD m.cursor.toNat []) }
          else m
      | none => m
  | Msg.keyLeft =>
      match nodeAt m.root (m.vis.getD m.cursor.toNat []) with
      | some nd =>
          if nodeIsDir nd = true ∧ nodeExpanded nd = true ∧ 0 < (nodeChildren nd).length
          then
            applyEnsure
              { m with
                root := setExpandedAt (m.vis.getD m.cursor.toNat []) false m.root,
                vis := visPaths [] (setExpandedAt (m.vis.getD m.cursor.toNat []) false m.root),
                cursor := goIndexOf
                  (visPaths [] (setExpandedAt (m.vis.getD m.cursor.toNat []) false m.root))
                  (m.vis.getD m.cursor.toNat []) }
          else m
      | none => m
  | Msg.keyToggle =>
      match nodeAt m.root (m.vis.getD m.cursor.toNat []) with
      | some nd =>
          if nodeIsDir nd = false then
            { m with
              root := toggleSelAt (m.vis.getD m.cursor.toNat []) m.root,
              selectedCount :=
                if nodeSelected nd = false then m.selectedCount + 1
                else m.selectedCount - 1 }
          else m
      | none => m
  | Msg.keyConfirm => { m with confirmed := true }

/-- States reachable from the initial model by key and resize events. -/
inductive Reachable : TuiModel → Prop
  | init (root : Node) : Reachable (initModel root)
  | next (m : TuiModel) (msg : Msg) : Reachable m → Reachable (stepModel m msg)

theorem viewportHeight_pos (h : Int) : 1 ≤ viewportHeight h := by
  unfold viewportHeight
  split <;> omega

set_option maxHeartbeats 1600000 in
/-- ensureCursorVisible establishes the scroll window invariant from any
starting cursor/offset, as long as the list is non-empty and the viewport
has positive height. -/
theorem ensure_inv (lenVis vh cursor offset : Int) (hlen : 1 ≤ lenVis) (hvh : 1 ≤ vh) :
    (ensureCursorVisible lenVis vh cursor offset).2
        ≤ (ensureCursorVisible lenVis vh cursor offset).1 ∧
    (ensureCursorVisible lenVis vh cursor offset).1
        < (ensureCursorVisible lenVis vh cursor offset).2 + vh ∧
    0 ≤ (ensureCursorVisible lenVis vh cursor offset).2 ∧
    (ensureCursorVisible lenVis vh cursor offset).2 ≤ max 0 (lenVis - vh) := by
  rcases le_total (lenVis - vh) 0 with hm | hm
  · rw [max_eq_left hm]
    simp only [ensureCursorVisible]
    split_ifs <;> refine ⟨by omega, by omega, by omega, by omega⟩
  · rw [max_eq_right hm]
    simp only [ensureCursorVisible]
    split_ifs <;> refine ⟨by omega, by omega, by omega, by omega⟩

/-- The scroll window invariant of claim C8. -/
def ScrollInv (m : TuiModel) : Prop :=
  m.offset ≤ m.cursor ∧ m.cursor < m.offset + viewportHeight m.height ∧
  0 ≤ m.offset ∧ m.offset ≤ max 0 ((m.vis.length : Int) - viewportHeight m.height)

theorem applyEnsure_inv (m : TuiModel) (hlen : 1 ≤ (m.vis.length : Int)) :
    ScrollInv (applyEnsure m) := by
  have h := ensure_inv (m.vis.length : Int) (viewportHeight m.height) m.cursor m.offset
    hlen (viewportHeight_pos m.height)
  exact ⟨h.1, h.2.1, h.2.2.1, h.2.2.2⟩

theorem visPaths_ne_nil : ∀ (p : List (List Char)) (t : Node), visPaths p t ≠ [] := by
  intro p t
  cases t <;> simp [visPaths]

theorem visPaths_len_pos (p : List (List Char)) (t : Node) :
    1 ≤ ((visPaths p t).length : Int) := by
  have h := visPaths_ne_nil p t
  have : 0 < (visPaths p t).length := List.length_pos.2 h
  omega

/-- Auxiliary reachability invariant: scroll window plus non-emptiness of the
visible list (the root node is always visible). -/
theorem reachable_scrollInv : ∀ m : TuiModel, Reachable m →
    ScrollInv m ∧ 1 ≤ ((m.vis.length : Int)) := by
  intro m h
  induction h with
  | init root =>
      constructor
      · refine ⟨le_refl 0, ?_, le_refl 0, le_max_left 0 _⟩
        have : viewportHeight 0 = 1 := rfl
        simp only [initModel, this]
        omega
      · exact visPaths_len_pos [] root
  | next m msg hm ih =>
      cases msg with
      | winSize w h =>
          refine ⟨applyEnsure_inv _ ?_, ?_⟩
          · exact ih.2
          · exact ih.2
      | keyQuit => exact ih
      | keyUp => exact ⟨applyEnsure_inv _ ih.2, ih.2⟩
      | keyDown => exact ⟨applyEnsure_inv _ ih.2, ih.2⟩
      | keyRight =>
          simp only [stepModel]
          split
          · split
            · exact ⟨applyEnsure_inv _ (visPaths_len_pos _ _), visPaths_len_pos _ _⟩
            · exact ih
          · exact ih
      | keyLeft =>
          simp only [stepModel]
          split
          · split
            · exact ⟨applyEnsure_inv _ (visPaths_len_pos _ _), visPaths_len_pos _ _⟩
            · exact ih
          · exact ih
      | keyToggle =>
          simp only [stepModel]
          split
          · split
            · exact ih
            · exact ih
          · exact ih
      | keyConfirm => exact ih

/-- C8: in every model state reachable from the initial state by any
sequence of key and resize events, the cursor index lies within
[scrollOffset, scrollOffset + viewportHeight) and the scroll offset lies
within [0, max 0 (totalVisible - viewportHeight)]. -/
theorem scroll_invariant (m : TuiModel) (h : Reachable m) :
    m.offset ≤ m.cursor ∧ m.cursor < m.offset + viewportHeight m.height ∧
    0 ≤ m.offset ∧ m.offset ≤ max 0 ((m.vis.length : Int) - viewportHeight m.height) :=
  (reachable_scrollInv m h).1

theorem scroll_invariant_witness :
    (initModel (Node.dir ['.'] ['.'] 0 true [Node.file ['a'] ['a'] 1 false])).offset
      ≤ (initModel (Node.dir ['.'] ['.'] 0 true [Node.file ['a'] ['a'] 1 false])).cursor ∧
    (initModel (Node.dir ['.'] ['.'] 0 true [Node.file ['a'] ['a'] 1 false])).cursor
      < (initModel (Node.dir ['.'] ['.'] 0 true [Node.file ['a'] ['a'] 1 false])).offset
        + viewportHeight (initModel (Node.dir ['.'] ['.'] 0 true
            [Node.file ['a'] ['a'] 1 false])).height ∧
    0 ≤ (initModel (Node.dir ['.'] ['.'] 0 true [Node.file ['a'] ['a'] 1 false])).offset ∧
    (initModel (Node.dir ['.'] ['.'] 0 true [Node.file ['a'] ['a'] 1 false])).offset
      ≤ max 0 (((initModel (Node.dir ['.'] ['.'] 0 true
            [Node.file ['a'] ['a'] 1 false])).vis.length : Int)
          - viewportHeight (initModel (Node.dir ['.'] ['.'] 0 true
              [Node.file ['a'] ['a'] 1 false])).height) :=
  scroll_invariant _ (Reachable.init _)

/-! ### DocumentAssembler: the binary-file entry of buildMarkdown
(main.go:707-747) -/

/-- bytes.TrimRight(out, "\n") (main.go:720): remove trailing newline bytes. -/
def trimRightNL (l : List Nat) : List Nat :=
  (l.reverse.dropWhile (fun c => c = 10)).reverse

/-- The byte sequence buildMarkdown writes for one selected binary file in
binary-allowed mode (main.go:707-747), in statement order: the "## path"
heading with a blank line (Fprintf "## %s\n\n", line 707), a literal "```"
line (Fprintln, line 718), the negotiated fence on its own line (line 738),
the trimmed `file` output (written only when non-empty, which equals
appending the trimmed bytes), a newline (line 744), the closing fence
(line 745) and a blank line (line 746).  The backtick run of the trimmed
output is computed by the inline loop of main.go:721-735, which is the
maxRunByteInReader scan. -/
def binaryEntry (path descr : List Nat) : List Nat :=
  [35, 35, 32] ++ path ++ [10, 10]
    ++ [96, 96, 96, 10]
    ++ fenceForContent (maxRunByte (trimRightNL descr) backtick) ++ [10]
    ++ trimRightNL descr ++ [10]
    ++ fenceForContent (maxRunByte (trimRightNL descr) backtick) ++ [10]
    ++ [10]

/-- Modelled from the spec: the entry claim C4 describes — a level-2 heading
with the relative path, a blank line, an opening fence sized by the fence
negotiation against the trimmed binary description, the trimmed description,
a closing fence of the same length and a blank line, with no other lines
between the heading block and the fenced block. -/
def specBinaryEntry (path descr : List Nat) : List Nat :=
  [35, 35, 32] ++ path ++ [10, 10]
    ++ fenceForContent (maxRunByte (trimRightNL descr) backtick) ++ [10]
    ++ trimRightNL descr ++ [10]
    ++ fenceForContent (maxRunByte (trimRightNL descr) backtick) ++ [10]
    ++ [10]

/-- C4 (code bug): for the binary file "a.bin" with `file` output "ELF\n",
the emitted entry carries a stray literal "```" line between the heading's
blank line and the negotiated opening fence (the unconditional
Fprintln(w, "```") of main.go:718), so it differs from the entry the claim
(and the README's collision-safe-fence promise) describes. -/
theorem binary_entry_stray_fence :
    binaryEntry [97, 46, 98, 105, 110] [69, 76, 70, 10]
      = [35, 35, 32] ++ [97, 46, 98, 105, 110] ++ [10, 10]
        ++ [96, 96, 96, 10]
        ++ [96, 96, 96, 10] ++ [69, 76, 70] ++ [10]
        ++ [96, 96, 96, 10] ++ [10] ∧
    binaryEntry [97, 46, 98, 105, 110] [69, 76, 70, 10]
      ≠ specBinaryEntry [97, 46, 98, 105, 110] [69, 76, 70, 10] :=
  ⟨rfl, by decide⟩
